import Mathlib

/-!
Shallow embedding of the text-normalization core (`postprocess`) and the retry
policy (`call_llm`) of `src/slide_creator_v3.py`, with theorems C1-C10 checking
the specification's statements about them.  Strings are modelled as `List Char`;
each regex substitution of the source is translated into an executable recursive
function mirroring Python `re.sub` semantics (leftmost, non-overlapping scan).
-/

namespace SlideCreator

/-- Python's whitespace class: the characters matched by `\s` in `re` (str mode),
which is also exactly the set stripped by `str.strip()`. -/
def isPySpace (c : Char) : Bool :=
  c = ' ' || c = '\t' || c = '\n' || c = '\r' || c = '\x0b' || c = '\x0c' ||
  c = '\x1c' || c = '\x1d' || c = '\x1e' || c = '\x1f' || c = '\x85' || c = '\xa0' ||
  c = '\u1680' || ('\u2000' ≤ c && c ≤ '\u200a') || c = '\u2028' || c = '\u2029' ||
  c = '\u202f' || c = '\u205f' || c = '\u3000'

/-- The characters `str.splitlines()` treats as line boundaries
(`\n \x0b \x0c \r \x1c \x1d \x1e \x85    `; the pair `\r\n` counts
as a single boundary and is handled in `splitlines` itself). -/
def isLB (c : Char) : Bool :=
  c = '\n' || c = '\x0b' || c = '\x0c' || c = '\r' || c = '\x1c' || c = '\x1d' ||
  c = '\x1e' || c = '\x85' || c = '\u2028' || c = '\u2029'

/-- Python's `\d` matches any Unicode decimal digit (category Nd).  The texts this
normalizer sees contain ASCII and full-width digits; the embedding models those
ranges (every proof below depends only on the kana/kanji/line-break characters
involved not being digits). -/
def isPyDigit (c : Char) : Bool :=
  c.isDigit || ('０' ≤ c && c ≤ '９')

/-- The character class `[PｐＰ]` of the p-value rule (line 224): half-width capital,
full-width small and full-width capital; half-width small `p` is absent. -/
def pClass (c : Char) : Bool :=
  c = 'P' || c = 'ｐ' || c = 'Ｐ'

/-- Pass 1, `re.sub(r"[PｐＰ]\s*=\s*", "p=", text)` (line 224): a class character
followed by optional whitespace, an ASCII equals sign and optional (greedy)
whitespace is replaced by `p=`; scanning is leftmost and non-overlapping. -/
def pass1 : List Char → List Char
  | [] => []
  | c :: rest =>
    if pClass c ∧ (rest.dropWhile isPySpace).head? = some '=' then
      'p' :: '=' :: pass1 (((rest.dropWhile isPySpace).tail).dropWhile isPySpace)
    else
      c :: pass1 rest
termination_by s => s.length
decreasing_by
  · have h1 : (List.dropWhile isPySpace rest).length ≤ rest.length :=
      (List.dropWhile_suffix _).length_le
    have h2 : (((List.dropWhile isPySpace rest).tail).dropWhile isPySpace).length ≤
        ((List.dropWhile isPySpace rest).tail).length :=
      (List.dropWhile_suffix _).length_le
    simp only [List.length_tail, List.length_cons] at *
    omega
  · simp

/-- Pass 2, `re.sub(r"(?<=\d)月", "ヶ月", text)` (line 227), as a scan that carries
whether the previous character of the original text is a digit. -/
def pass2Aux (b : Bool) : List Char → List Char
  | [] => []
  | c :: rest =>
    if b ∧ c = '月' then 'ヶ' :: '月' :: pass2Aux false rest
    else c :: pass2Aux (isPyDigit c) rest

/-- Pass 2 on a whole text: the start of the string has no preceding digit. -/
def pass2 (s : List Char) : List Char := pass2Aux false s

/-- Prepend a character to the first line of a line list (helper for `splitlines`). -/
def consLine (c : Char) : List (List Char) → List (List Char)
  | [] => [[c]]
  | l :: ls => (c :: l) :: ls

/-- Python `str.splitlines()`: split at every line-boundary character, treating
`\r\n` as one boundary; a trailing boundary does not open a final empty line,
and the empty string has no lines. -/
def splitlines : List Char → List (List Char)
  | [] => []
  | c :: rest =>
    if c = '\r' ∧ rest.head? = some '\n' then [] :: splitlines rest.tail
    else if isLB c then [] :: splitlines rest
    else consLine c (splitlines rest)
termination_by s => s.length
decreasing_by
  · simp only [List.length_tail, List.length_cons]
    omega
  · simp
  · simp

/-- Python `"\n".join(lines)` (line 238). -/
def joinNL : List (List Char) → List Char
  | [] => []
  | [l] => l
  | l :: ls => l ++ '\n' :: joinNL ls

/-- The opening-quote class `[「『“"＂]` of line 234. -/
def isOpenQuote (c : Char) : Bool :=
  c = '「' || c = '『' || c = '“' || c = '\"' || c = '＂'

/-- The trailing class `[」『”"＂]` of line 235.  Note it contains the opening
bracket `『` (U+300E) and not the closing bracket `』` (U+300F). -/
def isCloseQuote (c : Char) : Bool :=
  c = '」' || c = '『' || c = '”' || c = '\"' || c = '＂'

/-- Python `str.strip()`: drop leading and trailing whitespace. -/
def strip (l : List Char) : List Char :=
  ((l.dropWhile isPySpace).reverse.dropWhile isPySpace).reverse

/-- Lines 233-235: `t = line.strip()`, then strip a leading run of opening quotes
and a trailing run of the closing class. -/
def cleanTitle (l : List Char) : List Char :=
  (((strip l).dropWhile isOpenQuote).reverse.dropWhile isCloseQuote).reverse

/-- The loop of lines 231-237: replace the first line whose `strip()` is non-empty
by its cleaned form and stop (`break`); all lines before it are blank and kept. -/
def fixFirst : List (List Char) → List (List Char)
  | [] => []
  | l :: ls => if strip l = [] then l :: fixFirst ls else cleanTitle l :: ls

/-- Pass 3 (lines 230-238): split into lines, clean the first non-blank line,
rejoin with `"\n"`. -/
def pass3 (s : List Char) : List Char := joinNL (fixFirst (splitlines s))

/-- Python `str.replace(pat, rep)` with `pat = p :: ps`: leftmost, non-overlapping,
global; scanning resumes after each inserted replacement. -/
def replaceAllAux (p : Char) (ps rep : List Char) : List Char → List Char
  | [] => []
  | c :: rest =>
    if c = p ∧ ps.isPrefixOf rest then
      rep ++ replaceAllAux p ps rep (rest.drop ps.length)
    else
      c :: replaceAllAux p ps rep rest
termination_by s => s.length
decreasing_by
  · simp only [List.length_drop, List.length_cons]
    omega
  · simp

/-- Python `text.replace("対照群", "コントロール群")` (line 241). -/
def replaceCtrl (s : List Char) : List Char :=
  replaceAllAux '対' ['照', '群'] ['コ', 'ン', 'ト', 'ロ', 'ー', 'ル', '群'] s

/-- Python `text.replace("Freedom from", "回避")` (line 242). -/
def replaceFreedom (s : List Char) : List Char :=
  replaceAllAux 'F' ['r', 'e', 'e', 'd', 'o', 'm', ' ', 'f', 'r', 'o', 'm'] ['回', '避'] s

/-- Does `pat = p :: ps` occur as a contiguous substring? -/
def hasOccur (p : Char) (ps : List Char) : List Char → Bool
  | [] => false
  | c :: rest => (c = p && ps.isPrefixOf rest) || hasOccur p ps rest

/-- The body of the pass-5 regex after its literal prefix: scan
`[^\n。]*?(提示|表示)[^\n。]*?。`.  `v` records whether `提示` or `表示` has been
seen; the scan stops at the first `。` (success iff a verb was seen before it)
and fails at `\n` or end of input, exactly as the negated class forces.
Returns the remainder of the text after the consumed match. -/
def scanBody : Bool → List Char → Option (List Char)
  | _, [] => none
  | v, c :: rest =>
    if c = '。' then (if v then some rest else none)
    else if c = '\n' then none
    else if (c = '提' || c = '表') && rest.head? = some '示' then scanBody true rest.tail
    else scanBody v rest
termination_by _ s => s.length
decreasing_by
  · simp only [List.length_tail, List.length_cons]
    omega
  · simp

theorem scanBody_some_length (v : Bool) (s : List Char) :
    ∀ t, scanBody v s = some t → t.length < s.length := by
  induction v, s using scanBody.induct with
  | case1 v =>
    intro t h
    simp only [scanBody] at h
    exact absurd h (by simp)
  | case2 rest =>
    intro t h
    simp [scanBody] at h
    simp [h]
  | case3 v rest hv =>
    intro t h
    simp [scanBody, hv] at h
  | case4 v rest hne =>
    intro t h
    simp [scanBody, hne] at h
  | case5 v c rest h1 h2 h3 ih =>
    intro t h
    simp only [scanBody, if_neg h1, if_neg h2, if_pos h3] at h
    have := ih t h
    simp only [List.length_tail, List.length_cons] at *
    omega
  | case6 v c rest h1 h2 h3 ih =>
    intro t h
    simp only [scanBody, if_neg h1, if_neg h2, if_neg h3] at h
    have := ih t h
    simp only [List.length_cons]
    omega

/-- Pass 5, `re.sub(r"スライドに[^\n。]*?(提示|表示)[^\n。]*?。", "", text)`
(line 243): at each position, if the literal `スライドに` starts there and the
body scan succeeds, the whole match is deleted and scanning resumes after it;
otherwise the character is kept. -/
def pass5 : List Char → List Char
  | [] => []
  | c :: rest =>
    if h : c = 'ス' ∧ rest.take 4 = ['ラ', 'イ', 'ド', 'に'] ∧
        (scanBody false (rest.drop 4)).isSome then
      pass5 ((scanBody false (rest.drop 4)).get h.2.2)
    else
      c :: pass5 rest
termination_by s => s.length
decreasing_by
  · have h1 : scanBody false (rest.drop 4) =
        some ((scanBody false (rest.drop 4)).get h.2.2) := (Option.some_get h.2.2).symm
    have h2 := scanBody_some_length false (rest.drop 4) _ h1
    have h3 : (rest.drop 4).length ≤ rest.length := by
      simp only [List.length_drop]
      omega
    simp only [List.length_cons]
    omega
  · simp

/-- Function `postprocess` (lines 218-245) on `List Char`: the empty short-circuit, then the
five passes in source order. -/
def postprocessL (s : List Char) : List Char :=
  if s = [] then s
  else pass5 (replaceFreedom (replaceCtrl (pass3 (pass2 (pass1 s)))))

/-- Function `postprocess` on `String`. -/
def postprocess (s : String) : String := String.mk (postprocessL s.data)

/-- Number of lines of a text, in the sense of the source's own `splitlines`. -/
def numLines (s : List Char) : Nat := (splitlines s).length

/-! ## The retry policy around `call_llm` (lines 251-257)

The decorator is
`@retry(retry=retry_if_exception_type((APIError, RateLimitError, APITimeoutError)),
wait=wait_exponential(multiplier=1, min=2, max=20), stop=stop_after_attempt(4),
reraise=True)`.  `retry_if_exception_type` tests `isinstance`, so it accepts every
exception of the named classes or their subclasses.  In the installed `openai`
python package the exception hierarchy is
`APIError ⊃ APIStatusError ⊃ {AuthenticationError, BadRequestError, RateLimitError,
PermissionDeniedError, …}` and `APIError ⊃ APIConnectionError ⊃ APITimeoutError`;
only exceptions outside the `APIError` family (e.g. a bare `OpenAIError` or an
unrelated exception) fall outside the tuple. -/

/-- The kinds of exception the wrapped call can raise, as leaf classes. -/
inductive ExcKind where
  | rateLimitError
  | apiTimeoutError
  | apiStatusError
  | authenticationError
  | badRequestError
  | otherError
deriving DecidableEq

/-- Python `isinstance(e, APIError)`: every `openai` API exception kind is a subclass of
`APIError`; only an exception from outside that family is not. -/
def isInstanceOfAPIError : ExcKind → Bool
  | .otherError => false
  | _ => true

/-- Python `isinstance(e, RateLimitError)`. -/
def isInstanceOfRateLimitError : ExcKind → Bool
  | .rateLimitError => true
  | _ => false

/-- Python `isinstance(e, APITimeoutError)`. -/
def isInstanceOfAPITimeoutError : ExcKind → Bool
  | .apiTimeoutError => true
  | _ => false

/-- Tenacity `retry_if_exception_type((APIError, RateLimitError, APITimeoutError))`. -/
def retryCondition (e : ExcKind) : Bool :=
  isInstanceOfAPIError e || isInstanceOfRateLimitError e || isInstanceOfAPITimeoutError e

/-- Tenacity `wait_exponential(multiplier=1, min=2, max=20)` after the `n`-th failed attempt
(`n` is tenacity's 1-based `attempt_number`): `multiplier * 2**n` clamped into
`[min, max]`. -/
def wait_exponential (n : Nat) : Nat := max 2 (min 20 (2 ^ n))

/-- The retry loop: run attempt `n` of `f`; on success stop, on a failure that
matches the retry condition and with retries left, sleep the exponential wait and
try again; otherwise re-raise (`reraise=True`).  Returns the final outcome,
the number of attempts made, and the list of waits slept. -/
def retryFrom (f : Nat → Except ExcKind String) : Nat → Nat → Except ExcKind String × Nat × List Nat
  | n, fuel =>
    match f n with
    | .ok v => (.ok v, n, [])
    | .error e =>
      match fuel with
      | 0 => (.error e, n, [])
      | fuel' + 1 =>
        if retryCondition e then
          let r := retryFrom f (n + 1) fuel'
          (r.1, r.2.1, wait_exponential n :: r.2.2)
        else (.error e, n, [])

/-- Function `call_llm` under `stop_after_attempt(4)`: at most 4 total attempts. -/
def call_llm (f : Nat → Except ExcKind String) : Except ExcKind String × Nat × List Nat :=
  retryFrom f 1 3

/-- Predicate for claim C6: the `pass2Aux` output never has `月` directly after a digit. -/
def noDigitMonth : List Char → Bool
  | a :: b :: rest => !(isPyDigit a && b = '月') && noDigitMonth (b :: rest)
  | _ => true

/-! ## Lemmas about pass 1 -/

theorem pClass_not_space {c : Char} (h : pClass c = true) : isPySpace c = false := by
  rcases Bool.or_eq_true_iff.mp h with h1 | h2
  · rcases Bool.or_eq_true_iff.mp h1 with h3 | h3 <;>
      simp only [decide_eq_true_eq] at h3 <;> subst h3 <;> decide
  · simp only [decide_eq_true_eq] at h2
    subst h2
    decide

theorem pass1_head (s : List Char) :
    (pass1 s).head? = s.head? ∨ (pass1 s).head? = some 'p' := by
  cases s with
  | nil => left; simp [pass1]
  | cons c rest =>
    simp only [pass1]
    split
    · right; rfl
    · left; rfl

theorem pass1_dropWhile (s : List Char) :
    (pass1 s).dropWhile isPySpace = pass1 (s.dropWhile isPySpace) := by
  induction s using pass1.induct with
  | case1 => simp [pass1]
  | case2 c rest h ih =>
    rw [pass1, if_pos h]
    have hsp : isPySpace c = false := pClass_not_space h.1
    rw [List.dropWhile_cons_of_neg (by decide), List.dropWhile_cons_of_neg (by simp [hsp])]
    rw [pass1, if_pos h]
  | case3 c rest h ih =>
    rw [pass1, if_neg h]
    by_cases hsp : isPySpace c = true
    · rw [List.dropWhile_cons_of_pos hsp, List.dropWhile_cons_of_pos hsp, ih]
    · rw [List.dropWhile_cons_of_neg (by simp [hsp]),
        List.dropWhile_cons_of_neg (by simp [hsp]), pass1, if_neg h]

theorem pass1_no_eq_head {s : List Char} (h : ¬(s.dropWhile isPySpace).head? = some '=') :
    ¬((pass1 s).dropWhile isPySpace).head? = some '=' := by
  rw [pass1_dropWhile]
  rcases pass1_head (s.dropWhile isPySpace) with h1 | h1 <;> rw [h1]
  · exact h
  · simp

/-- Pass 1 is idempotent: a second application of the p-value substitution
changes nothing. -/
theorem pass1_idem (s : List Char) : pass1 (pass1 s) = pass1 s := by
  induction s using pass1.induct with
  | case1 => simp [pass1]
  | case2 c rest h ih =>
    rw [pass1, if_pos h]
    rw [pass1, if_neg (by rintro ⟨hc, -⟩; exact absurd hc (by decide))]
    rw [pass1, if_neg (by rintro ⟨hc, -⟩; exact absurd hc (by decide))]
    rw [ih]
  | case3 c rest h ih =>
    rw [pass1, if_neg h]
    have h2 : ¬(pClass c = true ∧ ((pass1 rest).dropWhile isPySpace).head? = some '=') := by
      rintro ⟨hc, he⟩
      rcases not_and_or.mp h with h3 | h3
      · exact h3 hc
      · exact pass1_no_eq_head h3 he
    rw [pass1, if_neg h2, ih]

/-! ## Lemmas about pass 2 -/

theorem pass2Aux_head_nl (b : Bool) (s : List Char) :
    (pass2Aux b s).head? = some '\n' ↔ s.head? = some '\n' := by
  cases s with
  | nil => simp [pass2Aux]
  | cons c rest =>
    rw [pass2Aux]
    split
    · rename_i h
      rw [h.2]
      simp only [List.head?_cons]
      constructor <;> (intro hx; exact absurd hx (by decide))
    · simp

theorem pass2Aux_head_not_month (rest : List Char) :
    ¬(pass2Aux true rest).head? = some '月' := by
  cases rest with
  | nil => simp [pass2Aux]
  | cons c r2 =>
    rw [pass2Aux]
    split
    · simp only [List.head?_cons]
      decide
    · rename_i h
      simp only [List.head?_cons, Option.some_inj]
      intro hc
      exact h ⟨rfl, hc⟩

theorem noDigitMonth_cons {a : Char} (ha : isPyDigit a = false) (l : List Char) :
    noDigitMonth (a :: l) = noDigitMonth l := by
  cases l with
  | nil => rfl
  | cons x xs => simp [noDigitMonth, ha]

/-- Pass 2 is idempotent. -/
theorem pass2Aux_idem (s : List Char) : ∀ b, pass2Aux b (pass2Aux b s) = pass2Aux b s := by
  induction s with
  | nil => intro b; rfl
  | cons c rest ih =>
    intro b
    by_cases h : b = true ∧ c = '月'
    · rw [pass2Aux, if_pos h]
      rw [pass2Aux, if_neg (by rintro ⟨-, h2⟩; exact absurd h2 (by decide))]
      rw [show isPyDigit 'ヶ' = false from by decide]
      rw [pass2Aux, if_neg (by rintro ⟨h2, -⟩; exact absurd h2 (by decide))]
      rw [show isPyDigit '月' = false from by decide]
      rw [ih false]
    · rw [pass2Aux, if_neg h, pass2Aux, if_neg h, ih (isPyDigit c)]

/-- In the output of pass 2 no digit is immediately followed by the bare `月`. -/
theorem pass2Aux_noDigitMonth (s : List Char) : ∀ b, noDigitMonth (pass2Aux b s) = true := by
  induction s with
  | nil => intro b; rfl
  | cons c rest ih =>
    intro b
    by_cases h : b = true ∧ c = '月'
    · rw [pass2Aux, if_pos h, noDigitMonth_cons (by decide), noDigitMonth_cons (by decide)]
      exact ih false
    · rw [pass2Aux, if_neg h]
      by_cases hd : isPyDigit c = true
      · rw [hd]
        cases hy : pass2Aux true rest with
        | nil => rfl
        | cons y ys =>
          have hym : ¬y = '月' := by
            have hh := pass2Aux_head_not_month rest
            rw [hy] at hh
            simpa using hh
          have ht := ih true
          rw [hy] at ht
          simp [noDigitMonth, hym, ht]
      · rw [noDigitMonth_cons (by simpa using hd)]
        exact ih (isPyDigit c)

/-! ## Lemmas about splitlines and numLines -/

theorem length_consLine (c : Char) (L : List (List Char)) :
    (consLine c L).length = max 1 L.length := by
  cases L with
  | nil => rfl
  | cons l ls => simp [consLine, Nat.max_eq_right]

theorem splitlines_nil : splitlines [] = [] := by rw [splitlines]

theorem splitlines_crlf (rest : List Char) :
    splitlines ('\r' :: '\n' :: rest) = [] :: splitlines rest := by
  rw [splitlines, if_pos ⟨rfl, rfl⟩]
  rfl

theorem splitlines_lb {c : Char} {rest : List Char} (h : isLB c = true)
    (h2 : ¬(c = '\r' ∧ rest.head? = some '\n')) :
    splitlines (c :: rest) = [] :: splitlines rest := by
  rw [splitlines, if_neg h2, if_pos h]

theorem splitlines_cons_nonLB {c : Char} (h : isLB c = false) (rest : List Char) :
    splitlines (c :: rest) = consLine c (splitlines rest) := by
  have h2 : ¬(c = '\r' ∧ rest.head? = some '\n') := by
    rintro ⟨rfl, -⟩
    exact absurd h (by decide)
  rw [splitlines, if_neg h2, if_neg (by simp [h])]

theorem numLines_nil : numLines [] = 0 := by
  rw [numLines, splitlines_nil]
  rfl

theorem numLines_cons_nonLB {c : Char} (h : isLB c = false) (rest : List Char) :
    numLines (c :: rest) = max 1 (numLines rest) := by
  rw [numLines, splitlines_cons_nonLB h, length_consLine]
  rfl

theorem numLines_crlf (rest : List Char) :
    numLines ('\r' :: '\n' :: rest) = numLines rest + 1 := by
  rw [numLines, splitlines_crlf]
  simp [numLines]

theorem numLines_lb {c : Char} {rest : List Char} (h : isLB c = true)
    (h2 : ¬(c = '\r' ∧ rest.head? = some '\n')) :
    numLines (c :: rest) = numLines rest + 1 := by
  rw [numLines, splitlines_lb h h2]
  simp [numLines]

theorem numLines_pos {s : List Char} (h : s ≠ []) : 1 ≤ numLines s := by
  cases s with
  | nil => cases h rfl
  | cons c rest =>
    by_cases h1 : c = '\r' ∧ rest.head? = some '\n'
    · obtain ⟨rfl, h2⟩ := h1
      cases rest with
      | nil => simp at h2
      | cons d r2 =>
        simp only [List.head?_cons, Option.some_inj] at h2
        subst h2
        rw [numLines_crlf]
        omega
    · by_cases h2 : isLB c = true
      · rw [numLines_lb h2 h1]
        omega
      · rw [numLines_cons_nonLB (by simpa using h2)]
        omega

theorem numLines_cons_ge (c : Char) (rest : List Char) :
    numLines rest ≤ numLines (c :: rest) := by
  by_cases h1 : c = '\r' ∧ rest.head? = some '\n'
  · obtain ⟨rfl, h2⟩ := h1
    cases rest with
    | nil => simp at h2
    | cons d r2 =>
      simp only [List.head?_cons, Option.some_inj] at h2
      subst h2
      rw [numLines_crlf, numLines_lb (by decide) (by rintro ⟨h3, -⟩; exact absurd h3 (by decide))]
  · by_cases h2 : isLB c = true
    · rw [numLines_lb h2 h1]
      omega
    · rw [numLines_cons_nonLB (by simpa using h2)]
      omega

theorem numLines_cons_le (c : Char) (rest : List Char) :
    numLines (c :: rest) ≤ numLines rest + 1 := by
  by_cases h1 : c = '\r' ∧ rest.head? = some '\n'
  · obtain ⟨rfl, h2⟩ := h1
    cases rest with
    | nil => simp at h2
    | cons d r2 =>
      simp only [List.head?_cons, Option.some_inj] at h2
      subst h2
      rw [numLines_crlf, numLines_lb (by decide) (by rintro ⟨h3, -⟩; exact absurd h3 (by decide))]
      omega
  · by_cases h2 : isLB c = true
    · rw [numLines_lb h2 h1]
    · rw [numLines_cons_nonLB (by simpa using h2)]
      omega

theorem numLines_append_ge (a t : List Char) : numLines t ≤ numLines (a ++ t) := by
  induction a with
  | nil => simp
  | cons c a ih =>
    simp only [List.cons_append]
    exact le_trans ih (numLines_cons_ge c (a ++ t))

theorem numLines_suffix_le {t s : List Char} (h : t <:+ s) : numLines t ≤ numLines s := by
  obtain ⟨a, rfl⟩ := h
  exact numLines_append_ge a t

theorem numLines_append_nonLB {l : List Char} (h1 : l ≠ [])
    (h2 : ∀ c ∈ l, isLB c = false) (t : List Char) :
    numLines (l ++ t) = max 1 (numLines t) := by
  induction l with
  | nil => cases h1 rfl
  | cons c l ih =>
    simp only [List.cons_append]
    rw [numLines_cons_nonLB (h2 c (by simp))]
    cases l with
    | nil => simp
    | cons d l2 =>
      rw [ih (by simp) (fun x hx => h2 x (by simp [hx]))]
      rw [← Nat.max_assoc, Nat.max_self]

theorem numLines_cons_mono_le {X rest : List Char} (c : Char)
    (hhead : rest.head? = some '\n' → X.head? = some '\n')
    (hle : numLines X ≤ numLines rest) :
    numLines (c :: X) ≤ numLines (c :: rest) := by
  by_cases hc : c = '\r' ∧ rest.head? = some '\n'
  · obtain ⟨rfl, h2⟩ := hc
    have hx := hhead h2
    cases rest with
    | nil => simp at h2
    | cons d rt =>
      cases X with
      | nil => simp at hx
      | cons e xt =>
        simp only [List.head?_cons, Option.some_inj] at h2 hx
        subst h2
        subst hx
        rw [numLines_crlf, numLines_crlf]
        rw [numLines_lb (by decide) (by rintro ⟨h3, -⟩; exact absurd h3 (by decide)),
            numLines_lb (by decide) (by rintro ⟨h3, -⟩; exact absurd h3 (by decide))] at hle
        omega
  · by_cases hlb : isLB c = true
    · rw [numLines_lb hlb hc]
      calc numLines (c :: X) ≤ numLines X + 1 := numLines_cons_le c X
        _ ≤ numLines rest + 1 := by omega
    · rw [numLines_cons_nonLB (by simpa using hlb), numLines_cons_nonLB (by simpa using hlb)]
      exact max_le_max le_rfl hle

theorem numLines_cons_mono_eq {X rest : List Char} (c : Char)
    (hhead : X.head? = some '\n' ↔ rest.head? = some '\n')
    (heq : numLines X = numLines rest) :
    numLines (c :: X) = numLines (c :: rest) := by
  by_cases hc : c = '\r'
  · subst hc
    by_cases h2 : rest.head? = some '\n'
    · have hx := hhead.mpr h2
      cases rest with
      | nil => simp at h2
      | cons d rt =>
        cases X with
        | nil => simp at hx
        | cons e xt =>
          simp only [List.head?_cons, Option.some_inj] at h2 hx
          subst h2
          subst hx
          rw [numLines_crlf, numLines_crlf]
          rw [numLines_lb (by decide) (by rintro ⟨h3, -⟩; exact absurd h3 (by decide)),
              numLines_lb (by decide) (by rintro ⟨h3, -⟩; exact absurd h3 (by decide))] at heq
          omega
    · have hx : ¬X.head? = some '\n' := fun hh => h2 (hhead.mp hh)
      rw [numLines_lb (by decide) (by rintro ⟨-, hh⟩; exact hx hh),
          numLines_lb (by decide) (by rintro ⟨-, hh⟩; exact h2 hh), heq]
  · by_cases hlb : isLB c = true
    · rw [numLines_lb hlb (by rintro ⟨hh, -⟩; exact hc hh),
          numLines_lb hlb (by rintro ⟨hh, -⟩; exact hc hh), heq]
    · rw [numLines_cons_nonLB (by simpa using hlb), numLines_cons_nonLB (by simpa using hlb), heq]

/-! ## Line counts of the passes -/

theorem pass1_head_nl {rest : List Char} (h : rest.head? = some '\n') :
    (pass1 rest).head? = some '\n' := by
  cases rest with
  | nil => simp at h
  | cons c r =>
    simp only [List.head?_cons, Option.some_inj] at h
    subst h
    rw [pass1, if_neg (by rintro ⟨hc, -⟩; exact absurd hc (by decide))]
    rfl

theorem numLines_pass1 (s : List Char) : numLines (pass1 s) ≤ numLines s := by
  induction s using pass1.induct with
  | case1 =>
    rw [pass1]
  | case2 c rest h ih =>
    rw [pass1, if_pos h]
    have hsuf : ((List.dropWhile isPySpace rest).tail).dropWhile isPySpace <:+ rest :=
      (List.dropWhile_suffix _).trans ((List.tail_suffix _).trans (List.dropWhile_suffix _))
    have h1 : numLines ('p' :: '=' ::
        pass1 (((List.dropWhile isPySpace rest).tail).dropWhile isPySpace)) =
        max 1 (numLines (pass1 (((List.dropWhile isPySpace rest).tail).dropWhile isPySpace))) := by
      rw [numLines_cons_nonLB (by decide), numLines_cons_nonLB (by decide)]
      rw [← Nat.max_assoc, Nat.max_self]
    rw [h1]
    have h2 : numLines (pass1 (((List.dropWhile isPySpace rest).tail).dropWhile isPySpace)) ≤
        numLines (c :: rest) :=
      le_trans ih (le_trans (numLines_suffix_le hsuf) (numLines_cons_ge c rest))
    exact Nat.max_le.mpr ⟨numLines_pos (by simp), h2⟩
  | case3 c rest h ih =>
    rw [pass1, if_neg h]
    exact numLines_cons_mono_le c pass1_head_nl ih

theorem numLines_pass2Aux (s : List Char) : ∀ b, numLines (pass2Aux b s) = numLines s := by
  induction s with
  | nil => intro b; rw [pass2Aux]
  | cons c rest ih =>
    intro b
    by_cases h : b = true ∧ c = '月'
    · obtain ⟨hb, rfl⟩ := h
      rw [pass2Aux, if_pos ⟨hb, rfl⟩]
      rw [numLines_cons_nonLB (by decide), numLines_cons_nonLB (by decide),
          numLines_cons_nonLB (by decide), ih false, ← Nat.max_assoc, Nat.max_self]
    · rw [pass2Aux, if_neg h]
      exact numLines_cons_mono_eq c (pass2Aux_head_nl (isPyDigit c) rest) (ih (isPyDigit c))

/-! ## Lemmas about pass 3 -/

theorem mem_dropWhile_imp {p : Char → Bool} {c : Char} {l : List Char}
    (h : c ∈ l.dropWhile p) : c ∈ l :=
  (List.dropWhile_suffix p).sublist.subset h

theorem mem_strip {c : Char} {l : List Char} (h : c ∈ strip l) : c ∈ l := by
  rw [strip] at h
  rw [List.mem_reverse] at h
  have h2 := mem_dropWhile_imp h
  rw [List.mem_reverse] at h2
  exact mem_dropWhile_imp h2

theorem mem_cleanTitle {c : Char} {l : List Char} (h : c ∈ cleanTitle l) : c ∈ l := by
  rw [cleanTitle] at h
  rw [List.mem_reverse] at h
  have h2 := mem_dropWhile_imp h
  rw [List.mem_reverse] at h2
  exact mem_strip (mem_dropWhile_imp h2)

theorem splitlines_noLB (s : List Char) :
    ∀ l ∈ splitlines s, ∀ c ∈ l, isLB c = false := by
  induction s using splitlines.induct with
  | case1 =>
    rw [splitlines_nil]
    simp
  | case2 c rest h ih =>
    obtain ⟨rfl, h2⟩ := h
    cases rest with
    | nil => simp at h2
    | cons d r2 =>
      simp only [List.head?_cons, Option.some_inj] at h2
      subst h2
      rw [splitlines_crlf]
      intro l hl
      rcases List.mem_cons.mp hl with rfl | hl2
      · simp
      · exact ih l hl2
  | case3 c rest h h2 ih =>
    rw [splitlines_lb h2 h]
    intro l hl
    rcases List.mem_cons.mp hl with rfl | hl2
    · simp
    · exact ih l hl2
  | case4 c rest h h2 ih =>
    rw [splitlines_cons_nonLB (by simpa using h2)]
    intro l hl
    cases hL : splitlines rest with
    | nil =>
      rw [hL] at hl
      simp only [consLine, List.mem_singleton] at hl
      subst hl
      intro x hx
      rcases List.mem_singleton.mp hx with rfl
      simpa using h2
    | cons l0 ls0 =>
      rw [hL] at hl
      simp only [consLine, List.mem_cons] at hl
      rcases hl with rfl | hl2
      · intro x hx
        rcases List.mem_cons.mp hx with rfl | hx2
        · simpa using h2
        · exact ih l0 (by rw [hL]; exact List.mem_cons_self l0 ls0) x hx2
      · exact ih l (by rw [hL]; exact List.mem_cons_of_mem l0 hl2)

theorem joinNL_cons₂ (l d : List Char) (ls2 : List (List Char)) :
    joinNL (l :: d :: ls2) = l ++ '\n' :: joinNL (d :: ls2) := rfl

theorem mem_joinNL {c : Char} : ∀ {ls : List (List Char)}, c ∈ joinNL ls →
    c = '\n' ∨ ∃ l ∈ ls, c ∈ l := by
  intro ls
  induction ls with
  | nil =>
    intro h
    rw [joinNL] at h
    simp at h
  | cons l ls ih =>
    intro h
    cases ls with
    | nil =>
      rw [joinNL] at h
      exact Or.inr ⟨l, by simp, h⟩
    | cons d ls2 =>
      rw [joinNL_cons₂] at h
      rcases List.mem_append.mp h with h1 | h1
      · exact Or.inr ⟨l, by simp, h1⟩
      · rcases List.mem_cons.mp h1 with rfl | h2
        · exact Or.inl rfl
        · rcases ih h2 with h3 | ⟨l0, hl0, hc⟩
          · exact Or.inl h3
          · exact Or.inr ⟨l0, List.mem_cons_of_mem l hl0, hc⟩

theorem numLines_joinNL : ∀ {ls : List (List Char)},
    (∀ l ∈ ls, ∀ c ∈ l, isLB c = false) → numLines (joinNL ls) ≤ ls.length := by
  intro ls
  induction ls with
  | nil =>
    intro h
    rw [joinNL, numLines_nil]
    simp
  | cons l ls ih =>
    intro h
    cases ls with
    | nil =>
      rw [joinNL]
      rcases eq_or_ne l [] with rfl | hne
      · rw [numLines_nil]
        simp
      · have := numLines_append_nonLB hne (h l (by simp)) []
        rw [List.append_nil] at this
        rw [this, numLines_nil]
        simp
    | cons d ls2 =>
      rw [joinNL_cons₂]
      have hnl : numLines ('\n' :: joinNL (d :: ls2)) =
          numLines (joinNL (d :: ls2)) + 1 :=
        numLines_lb (by decide) (by rintro ⟨h3, -⟩; exact absurd h3 (by decide))
      have hih : numLines (joinNL (d :: ls2)) ≤ (d :: ls2).length :=
        ih (fun l0 hl0 => h l0 (List.mem_cons_of_mem l hl0))
      rcases eq_or_ne l [] with rfl | hne
      · rw [List.nil_append, hnl]
        simpa using hih
      · rw [numLines_append_nonLB hne (h l (by simp)) _, hnl]
        have : numLines (joinNL (d :: ls2)) + 1 ≤ (l :: d :: ls2).length := by
          simp only [List.length_cons] at *
          omega
        exact le_trans (by omega) this

theorem length_fixFirst (ls : List (List Char)) : (fixFirst ls).length = ls.length := by
  induction ls with
  | nil => rfl
  | cons l ls ih =>
    rw [fixFirst]
    split
    · simp [ih]
    · simp

theorem fixFirst_noLB {ls : List (List Char)}
    (h : ∀ l ∈ ls, ∀ c ∈ l, isLB c = false) :
    ∀ l ∈ fixFirst ls, ∀ c ∈ l, isLB c = false := by
  induction ls with
  | nil =>
    rw [fixFirst]
    simp
  | cons l ls ih =>
    rw [fixFirst]
    split
    · intro l0 hl0
      rcases List.mem_cons.mp hl0 with rfl | h2
      · exact h l0 (by simp)
      · exact ih (fun x hx => h x (List.mem_cons_of_mem l hx)) l0 h2
    · intro l0 hl0
      rcases List.mem_cons.mp hl0 with rfl | h2
      · intro c hc
        exact h l (by simp) c (mem_cleanTitle hc)
      · exact h l0 (List.mem_cons_of_mem l h2)

theorem numLines_pass3 (s : List Char) : numLines (pass3 s) ≤ numLines s := by
  rw [pass3]
  have h := numLines_joinNL (fixFirst_noLB (splitlines_noLB s))
  rw [length_fixFirst] at h
  exact h

theorem pass3_no_cr (s : List Char) : '\r' ∉ pass3 s := by
  intro h
  rw [pass3] at h
  rcases mem_joinNL h with h1 | ⟨l, hl, hc⟩
  · exact absurd h1 (by decide)
  · have := fixFirst_noLB (splitlines_noLB s) l hl '\r' hc
    exact absurd this (by decide)

/-! ## Lemmas about str.replace -/

theorem prefixOf_append : ∀ (ps rest : List Char), ps.isPrefixOf rest = true →
    rest = ps ++ rest.drop ps.length
  | [], rest, _ => by simp
  | p :: ps, [], h => by simp [List.isPrefixOf] at h
  | p :: ps, r :: rest, h => by
    simp only [List.isPrefixOf, Bool.and_eq_true, beq_iff_eq] at h
    obtain ⟨rfl, h2⟩ := h
    simp only [List.cons_append, List.length_cons, List.drop_succ_cons]
    rw [← prefixOf_append ps rest h2]

theorem hasOccur_append {p : Char} {l : List Char} (ps : List Char) (h : ¬p ∈ l)
    (X : List Char) : hasOccur p ps (l ++ X) = hasOccur p ps X := by
  induction l with
  | nil => simp
  | cons c l ih =>
    simp only [List.cons_append]
    rw [hasOccur, ih (fun hm => h (List.mem_cons_of_mem c hm))]
    have hc : ¬c = p := fun he => h (he ▸ List.mem_cons_self c l)
    simp [hc]

theorem replace_not_prefixOf {p r0 : Char} {ps rr : List Char} (hr : ¬r0 ∈ ps)
    (t : List Char) :
    ∀ q : List Char, q ≠ [] → (∀ x ∈ q, x ∈ ps) → q.isPrefixOf t = false →
      q.isPrefixOf (replaceAllAux p ps (r0 :: rr) t) = false := by
  induction t using replaceAllAux.induct p ps (r0 :: rr) with
  | case1 =>
    intro q hq _ _
    cases q with
    | nil => cases hq rfl
    | cons q0 q2 => rw [replaceAllAux]; rfl
  | case2 c rest h ih =>
    intro q hq hmem _
    rw [replaceAllAux, if_pos h]
    cases q with
    | nil => cases hq rfl
    | cons q0 q2 =>
      have hq0 : ¬q0 = r0 := fun he => hr (he ▸ hmem q0 (by simp))
      simp only [List.cons_append, List.isPrefixOf, Bool.and_eq_false_iff]
      left
      simpa using hq0
  | case3 c rest h ih =>
    intro q hq hmem hpre
    rw [replaceAllAux, if_neg h]
    cases q with
    | nil => cases hq rfl
    | cons q0 q2 =>
      simp only [List.isPrefixOf, Bool.and_eq_false_iff] at hpre ⊢
      rcases hpre with hpre | hpre
      · left
        exact hpre
      · by_cases hq0 : q0 = c
        · right
          rcases eq_or_ne q2 [] with rfl | hq2
          · simp at hpre
          · exact ih q2 hq2 (fun x hx => hmem x (List.mem_cons_of_mem q0 hx)) hpre
        · left
          simpa using hq0

theorem replace_no_occur {p r0 : Char} {ps rr : List Char}
    (h1 : ¬p ∈ r0 :: rr) (h2 : ¬r0 ∈ ps) (s : List Char) :
    hasOccur p ps (replaceAllAux p ps (r0 :: rr) s) = false := by
  induction s using replaceAllAux.induct p ps (r0 :: rr) with
  | case1 => rw [replaceAllAux]; rfl
  | case2 c rest h ih =>
    rw [replaceAllAux, if_pos h, hasOccur_append ps h1]
    exact ih
  | case3 c rest h ih =>
    rw [replaceAllAux, if_neg h, hasOccur, ih]
    by_cases hc : c = p
    · subst hc
      have hnp : ps.isPrefixOf rest = false := by
        rcases hps : ps.isPrefixOf rest
        · rfl
        · exact absurd ⟨rfl, hps⟩ h
      have hne : ps ≠ [] := by
        rintro rfl
        simp [List.isPrefixOf] at hnp
      rw [replace_not_prefixOf h2 rest ps hne (fun x hx => hx) hnp]
      simp
    · simp [hc]

theorem replace_of_no_occur {p : Char} {ps rep s : List Char}
    (h : hasOccur p ps s = false) : replaceAllAux p ps rep s = s := by
  induction s with
  | nil => rw [replaceAllAux]
  | cons c rest ih =>
    rw [hasOccur, Bool.or_eq_false_iff, Bool.and_eq_false_iff] at h
    obtain ⟨h1, h2⟩ := h
    have hcond : ¬(c = p ∧ ps.isPrefixOf rest = true) := by
      rintro ⟨rfl, hpre⟩
      rcases h1 with h1 | h1
      · simp at h1
      · rw [hpre] at h1
        cases h1
    rw [replaceAllAux, if_neg hcond, ih h2]

theorem replace_head_nl {p r0 : Char} {ps rr : List Char} (hp : ¬p = '\n')
    (hr0 : ¬r0 = '\n') (t : List Char) :
    (replaceAllAux p ps (r0 :: rr) t).head? = some '\n' ↔ t.head? = some '\n' := by
  cases t with
  | nil => rw [replaceAllAux]
  | cons c rest =>
    rw [replaceAllAux]
    split
    · rename_i h
      simp only [List.cons_append, List.head?_cons, Option.some_inj]
      rw [h.1]
      constructor
      · intro hx
        exact absurd hx hr0
      · intro hx
        exact absurd hx hp
    · simp

theorem numLines_replace {p r0 : Char} {ps rr : List Char}
    (hpat : ∀ x ∈ p :: ps, isLB x = false) (hrep : ∀ x ∈ r0 :: rr, isLB x = false)
    (s : List Char) : numLines (replaceAllAux p ps (r0 :: rr) s) = numLines s := by
  induction s using replaceAllAux.induct p ps (r0 :: rr) with
  | case1 => rw [replaceAllAux]
  | case2 c rest h ih =>
    rw [replaceAllAux, if_pos h]
    obtain ⟨hc, hpre⟩ := h
    have hdec : rest = ps ++ rest.drop ps.length := prefixOf_append ps rest hpre
    rw [numLines_append_nonLB (by simp) hrep, ih]
    conv_rhs => rw [show (c :: rest : List Char) = (p :: ps) ++ rest.drop ps.length by
      rw [hc, List.cons_append, ← hdec]]
    rw [numLines_append_nonLB (by simp) hpat]
  | case3 c rest h ih =>
    rw [replaceAllAux, if_neg h]
    have hp : ¬p = '\n' := by
      intro he
      have := hpat p (by simp)
      rw [he] at this
      exact absurd this (by decide)
    have hr0 : ¬r0 = '\n' := by
      intro he
      have := hrep r0 (by simp)
      rw [he] at this
      exact absurd this (by decide)
    exact numLines_cons_mono_eq c (replace_head_nl hp hr0 rest) ih

theorem mem_replace {p : Char} {ps rep s : List Char} {c : Char}
    (h : c ∈ replaceAllAux p ps rep s) : c ∈ s ∨ c ∈ rep := by
  induction s using replaceAllAux.induct p ps rep with
  | case1 =>
    rw [replaceAllAux] at h
    simp at h
  | case2 c0 rest h2 ih =>
    rw [replaceAllAux, if_pos h2] at h
    rcases List.mem_append.mp h with h3 | h3
    · exact Or.inr h3
    · rcases ih h3 with h4 | h4
      · exact Or.inl (List.mem_cons_of_mem c0 (List.drop_subset _ rest h4))
      · exact Or.inr h4
  | case3 c0 rest h2 ih =>
    rw [replaceAllAux, if_neg h2] at h
    rcases List.mem_cons.mp h with rfl | h3
    · exact Or.inl (List.mem_cons_self c rest)
    · rcases ih h3 with h4 | h4
      · exact Or.inl (List.mem_cons_of_mem c0 h4)
      · exact Or.inr h4

/-! ## Lemmas about pass 5 -/

theorem scanBody_some_suffix (v : Bool) (s : List Char) :
    ∀ t, scanBody v s = some t → t <:+ s := by
  induction v, s using scanBody.induct with
  | case1 v =>
    intro t h
    simp only [scanBody] at h
    exact absurd h (by simp)
  | case2 rest =>
    intro t h
    simp [scanBody] at h
    rw [← h]
    exact (List.suffix_cons '。' rest)
  | case3 v rest hv =>
    intro t h
    simp [scanBody, hv] at h
  | case4 v rest hne =>
    intro t h
    simp [scanBody, hne] at h
  | case5 v c rest h1 h2 h3 ih =>
    intro t h
    simp only [scanBody, if_neg h1, if_neg h2, if_pos h3] at h
    exact ((ih t h).trans (List.tail_suffix rest)).trans (List.suffix_cons c rest)
  | case6 v c rest h1 h2 h3 ih =>
    intro t h
    simp only [scanBody, if_neg h1, if_neg h2, if_neg h3] at h
    exact (ih t h).trans (List.suffix_cons c rest)

theorem pass5_head_nl {rest : List Char} (h : rest.head? = some '\n') :
    (pass5 rest).head? = some '\n' := by
  cases rest with
  | nil => simp at h
  | cons c r =>
    simp only [List.head?_cons, Option.some_inj] at h
    subst h
    rw [pass5, dif_neg (by rintro ⟨hc, -⟩; exact absurd hc (by decide))]
    rfl

theorem numLines_pass5 (s : List Char) : numLines (pass5 s) ≤ numLines s := by
  induction s using pass5.induct with
  | case1 => rw [pass5]
  | case2 c rest h ih =>
    rw [pass5, dif_pos h]
    have h1 : scanBody false (rest.drop 4) =
        some ((scanBody false (rest.drop 4)).get h.2.2) := (Option.some_get h.2.2).symm
    have h2 := scanBody_some_suffix false (rest.drop 4) _ h1
    have h3 : (scanBody false (rest.drop 4)).get h.2.2 <:+ c :: rest :=
      (h2.trans (List.drop_suffix 4 rest)).trans (List.suffix_cons c rest)
    exact le_trans ih (numLines_suffix_le h3)
  | case3 c rest h ih =>
    rw [pass5, dif_neg h]
    exact numLines_cons_mono_le c pass5_head_nl ih

theorem mem_pass5 {x : Char} {s : List Char} (hm : x ∈ pass5 s) : x ∈ s := by
  induction s using pass5.induct with
  | case1 =>
    rw [pass5] at hm
    simp at hm
  | case2 c rest h ih =>
    rw [pass5, dif_pos h] at hm
    have h1 : scanBody false (rest.drop 4) =
        some ((scanBody false (rest.drop 4)).get h.2.2) := (Option.some_get h.2.2).symm
    have h2 := scanBody_some_suffix false (rest.drop 4) _ h1
    have h3 : (scanBody false (rest.drop 4)).get h.2.2 <:+ c :: rest :=
      (h2.trans (List.drop_suffix 4 rest)).trans (List.suffix_cons c rest)
    exact h3.sublist.subset (ih hm)
  | case3 c rest h ih =>
    rw [pass5, dif_neg h] at hm
    rcases List.mem_cons.mp hm with rfl | h2
    · exact List.mem_cons_self _ _
    · exact List.mem_cons_of_mem c (ih h2)

/-! ## The composed normalizer: line count and carriage returns -/

theorem numLines_replaceCtrl (s : List Char) : numLines (replaceCtrl s) = numLines s :=
  numLines_replace (by decide) (by decide) s

theorem numLines_replaceFreedom (s : List Char) : numLines (replaceFreedom s) = numLines s :=
  numLines_replace (by decide) (by decide) s

/-- The whole normalizer never increases the number of lines. -/
theorem numLines_postprocessL (s : List Char) : numLines (postprocessL s) ≤ numLines s := by
  rw [postprocessL]
  split
  · exact le_rfl
  · have h5 := numLines_pass5 (replaceFreedom (replaceCtrl (pass3 (pass2 (pass1 s)))))
    rw [numLines_replaceFreedom, numLines_replaceCtrl] at h5
    have h3 := numLines_pass3 (pass2 (pass1 s))
    have h2 : numLines (pass2 (pass1 s)) = numLines (pass1 s) :=
      numLines_pass2Aux (pass1 s) false
    have h1 := numLines_pass1 s
    simp only [pass2] at h5 h3 h2 ⊢
    omega

/-- The whole normalizer's output never contains a carriage return. -/
theorem no_cr_postprocessL (s : List Char) : '\r' ∉ postprocessL s := by
  rw [postprocessL]
  split
  · rename_i h
    subst h
    simp
  · intro hm
    have h1 := mem_pass5 hm
    rw [replaceFreedom] at h1
    rcases mem_replace h1 with h2 | h2
    · rw [replaceCtrl] at h2
      rcases mem_replace h2 with h3 | h3
      · exact pass3_no_cr _ h3
      · exact absurd h3 (by decide)
    · exact absurd h2 (by decide)

/-! ## Remaining helper lemmas -/

theorem dropWhile_all_append {ws : List Char} (h : ∀ x ∈ ws, isPySpace x = true)
    (t : List Char) : (ws ++ t).dropWhile isPySpace = t.dropWhile isPySpace := by
  induction ws with
  | nil => simp
  | cons c ws ih =>
    simp only [List.cons_append]
    rw [List.dropWhile_cons_of_pos (h c (by simp))]
    exact ih (fun x hx => h x (List.mem_cons_of_mem c hx))

/-- The positive side of pass 1: a class character, any run of whitespace, and an
ASCII equals sign collapse to `p=`, with any following whitespace swallowed. -/
theorem pass1_rewrites {c : Char} (hc : pClass c = true) {ws : List Char}
    (hws : ∀ x ∈ ws, isPySpace x = true) (t : List Char) :
    pass1 (c :: (ws ++ '=' :: t)) = 'p' :: '=' :: pass1 (t.dropWhile isPySpace) := by
  have hdw : (ws ++ '=' :: t).dropWhile isPySpace = '=' :: t := by
    rw [dropWhile_all_append hws]
    exact List.dropWhile_cons_of_neg (by decide)
  rw [pass1, if_pos ⟨hc, by rw [hdw]; rfl⟩, hdw, List.tail_cons]

theorem hasOccur_replaceCtrl (s : List Char) :
    hasOccur '対' ['照', '群'] (replaceCtrl s) = false :=
  replace_no_occur (by decide) (by decide) s

theorem hasOccur_replaceFreedom (s : List Char) :
    hasOccur 'F' ['r', 'e', 'e', 'd', 'o', 'm', ' ', 'f', 'r', 'o', 'm']
      (replaceFreedom s) = false :=
  replace_no_occur (by decide) (by decide) s

theorem replaceCtrl_idem (s : List Char) : replaceCtrl (replaceCtrl s) = replaceCtrl s :=
  replace_of_no_occur (hasOccur_replaceCtrl s)

theorem replaceFreedom_idem (s : List Char) :
    replaceFreedom (replaceFreedom s) = replaceFreedom s :=
  replace_of_no_occur (hasOccur_replaceFreedom s)

/-! ## The claims -/

/-- C1 counterexample: the p-notation rule matches only the ASCII equals sign and
only the class `[PｐＰ]`, so the spec's own example `"P＝0.03"` (full-width equals)
is returned unchanged rather than normalized to `"p=0.03"`, and the half-width
lowercase variant `"p = 0.03"` is also left unchanged. -/
theorem c1_counterexample :
    postprocessL (String.toList "P＝0.03") = String.toList "P＝0.03" ∧
    (String.toList "P＝0.03" == String.toList "p=0.03") = false ∧
    postprocessL (String.toList "p = 0.03") = String.toList "p = 0.03" ∧
    (String.toList "p = 0.03" == String.toList "p=0.03") = false := by
  refine ⟨?_, by decide, ?_, by decide⟩ <;>
    simp [postprocessL, pass1, pass2, pass2Aux, pass3, splitlines, consLine, joinNL,
      fixFirst, cleanTitle, strip, replaceCtrl, replaceFreedom, replaceAllAux, pass5,
      scanBody, pClass, isPySpace, isPyDigit, isLB, isOpenQuote, isCloseQuote,
      List.isPrefixOf, String.toList]

/-- C1 amended: any occurrence of `P`, `ｐ` or `Ｐ` followed by optional whitespace,
an ASCII `=` and optional whitespace is rewritten to `p=` with no intervening
whitespace; the half-width lowercase `p` and the full-width equals sign `＝` are
not matched, so `"P＝0.03"` is returned unchanged. -/
theorem c1_amended :
    (∀ c : Char, pClass c = true → ∀ ws : List Char, (∀ x ∈ ws, isPySpace x = true) →
      ∀ t : List Char,
        pass1 (c :: (ws ++ '=' :: t)) = 'p' :: '=' :: pass1 (t.dropWhile isPySpace)) ∧
    postprocessL (String.toList "P = 0.03") = String.toList "p=0.03" ∧
    postprocessL (String.toList "Ｐ = 0.03") = String.toList "p=0.03" ∧
    postprocessL (String.toList "ｐ = 0.03") = String.toList "p=0.03" ∧
    postprocessL (String.toList "P＝0.03") = String.toList "P＝0.03" := by
  refine ⟨fun c hc ws hws t => pass1_rewrites hc hws t, ?_, ?_, ?_, ?_⟩ <;>
    simp [postprocessL, pass1, pass2, pass2Aux, pass3, splitlines, consLine, joinNL,
      fixFirst, cleanTitle, strip, replaceCtrl, replaceFreedom, replaceAllAux, pass5,
      scanBody, pClass, isPySpace, isPyDigit, isLB, isOpenQuote, isCloseQuote,
      List.isPrefixOf, String.toList]

/-- C2 counterexample: the full battery is not idempotent, and neither is the
title-line pass alone.  On `"「 abc 」"` the quote stripping exposes inner
whitespace, so a first application gives `" abc "` and a second gives `"abc"`. -/
theorem c2_counterexample :
    postprocessL (String.toList "「 abc 」") = String.toList " abc " ∧
    postprocessL (String.toList " abc ") = String.toList "abc" ∧
    (String.toList " abc " == String.toList "abc") = false ∧
    pass3 (String.toList "「 abc 」") = String.toList " abc " ∧
    pass3 (String.toList " abc ") = String.toList "abc" := by
  refine ⟨?_, ?_, by decide, ?_, ?_⟩ <;>
    simp [postprocessL, pass1, pass2, pass2Aux, pass3, splitlines, consLine, joinNL,
      fixFirst, cleanTitle, strip, replaceCtrl, replaceFreedom, replaceAllAux, pass5,
      scanBody, pClass, isPySpace, isPyDigit, isLB, isOpenQuote, isCloseQuote,
      List.isPrefixOf, String.toList]

/-- C2 amended: passes 1 (p-notation), 2 (month suffix) and the two terminology
substitutions of pass 4 are each individually idempotent; the title-line quote
stripping pass is not (it can expose whitespace that a second run trims), and
consequently the full battery applied twice can differ from one application. -/
theorem c2_amended :
    (∀ s, pass1 (pass1 s) = pass1 s) ∧
    (∀ s, pass2 (pass2 s) = pass2 s) ∧
    (∀ s, replaceCtrl (replaceCtrl s) = replaceCtrl s) ∧
    (∀ s, replaceFreedom (replaceFreedom s) = replaceFreedom s) :=
  ⟨pass1_idem, fun s => pass2Aux_idem s false, replaceCtrl_idem, replaceFreedom_idem⟩

/-- C3 counterexample: when no non-blank line exists the text is *not* returned
unchanged (`"\n"` becomes `""`), and the trailing strip set is not the matching
closing set (it holds `『` but not `』`), so `"『T』"` becomes `"T』"`, not `"T"`. -/
theorem c3_counterexample :
    postprocessL (String.toList "\n") = [] ∧
    (String.toList "\n" == ([] : List Char)) = false ∧
    postprocessL (String.toList "『T』") = String.toList "T』" ∧
    (String.toList "T』" == String.toList "T") = false := by
  refine ⟨?_, by decide, ?_, by decide⟩ <;>
    simp [postprocessL, pass1, pass2, pass2Aux, pass3, splitlines, consLine, joinNL,
      fixFirst, cleanTitle, strip, replaceCtrl, replaceFreedom, replaceAllAux, pass5,
      scanBody, pClass, isPySpace, isPyDigit, isLB, isOpenQuote, isCloseQuote,
      List.isPrefixOf, String.toList]

/-- C3 amended: the first line that is non-blank after trimming is replaced by its
whitespace-trimmed form with a leading run of `「『“"＂` and a trailing run of
`」『”"＂` removed (that trailing set holds the opening `『` and not the closing
`』`); other lines' contents are untouched; the lines are rejoined with `"\n"`,
so with no non-blank line the contents survive but the terminators do not. -/
theorem c3_amended :
    postprocessL (String.toList "「TITLE TEXT」\n「x」") = String.toList "TITLE TEXT\n「x」" ∧
    postprocessL (String.toList "  「T」") = String.toList "T" ∧
    postprocessL (String.toList "\n「T」") = String.toList "\nT" ∧
    postprocessL (String.toList "『T』") = String.toList "T』" ∧
    postprocessL (String.toList "\n") = [] := by
  refine ⟨?_, ?_, ?_, ?_, ?_⟩ <;>
    simp [postprocessL, pass1, pass2, pass2Aux, pass3, splitlines, consLine, joinNL,
      fixFirst, cleanTitle, strip, replaceCtrl, replaceFreedom, replaceAllAux, pass5,
      scanBody, pClass, isPySpace, isPyDigit, isLB, isOpenQuote, isCloseQuote,
      List.isPrefixOf, String.toList]

/-- C4: the retry wrapper evaluated on the decisive inputs.  An authentication or
bad-request failure is an `APIError` subclass, so `retry_if_exception_type`
retries it: the caller sees it only after 4 attempts with waits 2, 4, 8 — the
claim's "propagates immediately with no retry" holds only for exceptions outside
the `APIError` family.  Three transient failures followed by success do yield the
success on the fourth attempt. -/
theorem c4_retry_behavior :
    call_llm (fun _ => .error .authenticationError) =
      (.error .authenticationError, 4, [2, 4, 8]) ∧
    call_llm (fun _ => .error .badRequestError) =
      (.error .badRequestError, 4, [2, 4, 8]) ∧
    call_llm (fun n => if n ≤ 3 then .error .rateLimitError else .ok "manuscript") =
      (.ok "manuscript", 4, [2, 4, 8]) ∧
    call_llm (fun _ => .error .otherError) = (.error .otherError, 1, []) ∧
    retryCondition .authenticationError = true :=
  ⟨rfl, rfl, rfl, rfl, rfl⟩

/-- C5 counterexample: the deletion starts at the literal `スライドに`, not at the
start of the sentence, so `"前文。結果をスライドに提示した。後文。"` keeps the
residue `結果を` — the whole sentence is not absent; and a sentence with the word
slide but a different particle (`スライドを提示した。`) is not deleted at all. -/
theorem c5_counterexample :
    postprocessL (String.toList "前文。結果をスライドに提示した。後文。") =
      String.toList "前文。結果を後文。" ∧
    (String.toList "前文。結果を後文。" == String.toList "前文。後文。") = false ∧
    postprocessL (String.toList "スライドを提示した。") = String.toList "スライドを提示した。" := by
  refine ⟨?_, by decide, ?_⟩ <;>
    simp [postprocessL, pass1, pass2, pass2Aux, pass3, splitlines, consLine, joinNL,
      fixFirst, cleanTitle, strip, replaceCtrl, replaceFreedom, replaceAllAux, pass5,
      scanBody, pClass, isPySpace, isPyDigit, isLB, isOpenQuote, isCloseQuote,
      List.isPrefixOf, String.toList]

/-- C5 amended: a span starting at the literal `スライドに` that contains `提示` or
`表示` before the first following `。` (with no intervening newline or `。`) is
deleted up to and including that `。`; text before `スライドに` in the sentence is
kept, the match never consumes past the first terminator, and a newline or `。`
between the trigger and the verb blocks the deletion. -/
theorem c5_amended :
    postprocessL (String.toList "前文。結果をスライドに提示した。後文。") =
      String.toList "前文。結果を後文。" ∧
    postprocessL (String.toList "スライドに結果を表示した。続き。") = String.toList "続き。" ∧
    postprocessL (String.toList "スライドに\n提示。") = String.toList "スライドに\n提示。" ∧
    postprocessL (String.toList "スライドに。提示。") = String.toList "スライドに。提示。" := by
  refine ⟨?_, ?_, ?_, ?_⟩ <;>
    simp [postprocessL, pass1, pass2, pass2Aux, pass3, splitlines, consLine, joinNL,
      fixFirst, cleanTitle, strip, replaceCtrl, replaceFreedom, replaceAllAux, pass5,
      scanBody, pClass, isPySpace, isPyDigit, isLB, isOpenQuote, isCloseQuote,
      List.isPrefixOf, String.toList]

/-- C6: a digit immediately followed by the bare `月` gets the `ヶ` suffix
(`"4月"` becomes `"4ヶ月"`), an already-suffixed `"4ヶ月"` is unchanged, no digit
is followed by a bare `月` in any output of the pass, and running the pass twice
never doubles the suffix (idempotence). -/
theorem c6_month_suffix :
    postprocessL (String.toList "4月") = String.toList "4ヶ月" ∧
    postprocessL (String.toList "4ヶ月") = String.toList "4ヶ月" ∧
    postprocessL (String.toList "４月") = String.toList "４ヶ月" ∧
    (∀ s, noDigitMonth (pass2 s) = true) ∧
    (∀ s, pass2 (pass2 s) = pass2 s) := by
  refine ⟨?_, ?_, ?_, fun s => pass2Aux_noDigitMonth s false, fun s => pass2Aux_idem s false⟩ <;>
    simp [postprocessL, pass1, pass2, pass2Aux, pass3, splitlines, consLine, joinNL,
      fixFirst, cleanTitle, strip, replaceCtrl, replaceFreedom, replaceAllAux, pass5,
      scanBody, pClass, isPySpace, isPyDigit, isLB, isOpenQuote, isCloseQuote,
      List.isPrefixOf, String.toList]

/-- C7: the normalizer's output has at most as many lines (in the sense of the
source's own `splitlines`) as its input: deletions may reduce the count, no pass
ever inserts a line. -/
theorem c7_line_count_le : ∀ s : List Char, numLines (postprocessL s) ≤ numLines s :=
  numLines_postprocessL

/-- C8: the normalizer is a total function of its input (every pass is a total
recursive function here, so it can raise nothing), the empty string is returned
unchanged through the explicit short-circuit, and a text no rule matches passes
through as a no-op. -/
theorem c8_total_empty :
    postprocess "" = "" ∧ postprocessL [] = [] ∧
    postprocessL (String.toList "abc") = String.toList "abc" := by
  refine ⟨rfl, rfl, ?_⟩
  simp [postprocessL, pass1, pass2, pass2Aux, pass3, splitlines, consLine, joinNL,
    fixFirst, cleanTitle, strip, replaceCtrl, replaceFreedom, replaceAllAux, pass5,
    scanBody, pClass, isPySpace, isPyDigit, isLB, isOpenQuote, isCloseQuote,
    List.isPrefixOf, String.toList]

/-- C9 counterexample: the two substitutions run before the sentence-deletion
pass, which can glue `対照` and `群` back together: on input
`"対照スライドに提示。群"` the final output is exactly the disallowed term
`対照群`, so the normalizer's output does not always have zero occurrences. -/
theorem c9_counterexample :
    postprocessL (String.toList "対照スライドに提示。群") = String.toList "対照群" ∧
    hasOccur '対' ['照', '群']
      (postprocessL (String.toList "対照スライドに提示。群")) = true := by
  have h : postprocessL (String.toList "対照スライドに提示。群") = String.toList "対照群" := by
    simp [postprocessL, pass1, pass2, pass2Aux, pass3, splitlines, consLine, joinNL,
      fixFirst, cleanTitle, strip, replaceCtrl, replaceFreedom, replaceAllAux, pass5,
      scanBody, pClass, isPySpace, isPyDigit, isLB, isOpenQuote, isCloseQuote,
      List.isPrefixOf, String.toList]
  refine ⟨h, ?_⟩
  rw [h]
  decide

/-- C9 amended: each substitution itself is global and complete — its own output
contains zero occurrences of the replaced term — and every literal occurrence is
replaced; but the later sentence-deletion pass may create a fresh occurrence, so
the guarantee holds for the substitution pass, not for the whole normalizer. -/
theorem c9_amended :
    (∀ s, hasOccur '対' ['照', '群'] (replaceCtrl s) = false) ∧
    (∀ s, hasOccur 'F' ['r', 'e', 'e', 'd', 'o', 'm', ' ', 'f', 'r', 'o', 'm']
      (replaceFreedom s) = false) ∧
    replaceCtrl (String.toList "A対照群B対照群") =
      String.toList "Aコントロール群Bコントロール群" ∧
    postprocessL (String.toList "対照スライドに提示。群") = String.toList "対照群" := by
  refine ⟨hasOccur_replaceCtrl, hasOccur_replaceFreedom, ?_, ?_⟩ <;>
    simp [postprocessL, pass1, pass2, pass2Aux, pass3, splitlines, consLine, joinNL,
      fixFirst, cleanTitle, strip, replaceCtrl, replaceFreedom, replaceAllAux, pass5,
      scanBody, pClass, isPySpace, isPyDigit, isLB, isOpenQuote, isCloseQuote,
      List.isPrefixOf, String.toList]

/-- C10 counterexample: the output can end with a line terminator: `"\n\n"`
normalizes to `"\n"`, whose last character is the terminator `'\n'`. -/
theorem c10_counterexample :
    postprocessL (String.toList "\n\n") = String.toList "\n" ∧
    (String.toList "\n").getLast? = some '\n' ∧ isLB '\n' = true := by
  refine ⟨?_, by decide, by decide⟩
  simp [postprocessL, pass1, pass2, pass2Aux, pass3, splitlines, consLine, joinNL,
    fixFirst, cleanTitle, strip, replaceCtrl, replaceFreedom, replaceAllAux, pass5,
    scanBody, pClass, isPySpace, isPyDigit, isLB, isOpenQuote, isCloseQuote,
    List.isPrefixOf, String.toList]

/-- C10 amended: the normalizer's output never contains a carriage return — the
title step splits on every terminator and rejoins with `"\n"` (so `"a\r\nb"`
becomes `"a\nb"`), and exactly one trailing terminator is dropped — but the
output can still end with `'\n'` when the input ended with two or more
terminators. -/
theorem c10_amended :
    (∀ s, '\r' ∉ postprocessL s) ∧
    postprocessL (String.toList "a\r\nb") = String.toList "a\nb" ∧
    postprocessL (String.toList "\n\n") = String.toList "\n" := by
  refine ⟨no_cr_postprocessL, ?_, ?_⟩ <;>
    simp [postprocessL, pass1, pass2, pass2Aux, pass3, splitlines, consLine, joinNL,
      fixFirst, cleanTitle, strip, replaceCtrl, replaceFreedom, replaceAllAux, pass5,
      scanBody, pClass, isPySpace, isPyDigit, isLB, isOpenQuote, isCloseQuote,
      List.isPrefixOf, String.toList]

end SlideCreator

